import Mathlib

/-!
Verification of the leviathan Branch-and-Bound substrate.

This file shallowly embeds the mutable-state components of the leviathan
BAP solver core and proves the spec's laws about them:

* `AvailableWindow` / `BerthTimeline` (src/leviathan/bnb/berth_timeline.h):
  the carving assignment, the range assignment and `find_earliest_start`.
* `SearchState` (SearchState header): `apply_move` / `backtrack_move`.
* `SearchStack` (SearchStack header): frames over a flat entries tape.
* the delta `SearchTrail` (src/leviathan/bnb/search_trail.h, first class):
  `save_value` / `mark_touched` / `push_checkpoint` / `backtrack`.
* the bundled `SearchTrail` (same header, generic class): frame-based
  opaque-bundle undo log.

C++ `std::vector` contents are modelled as Lean lists (push_back is append
at the right end, `resize` to a smaller size is `List.take`, `pop_back` is
`List.dropLast`).  `TimeType`/`value_type` are modelled as `Int`; container
positions are `Nat`.  Mutation of external containers through references
and callbacks is modelled by passing an explicit world state through the
function and returning the new one.  `DCHECK`ed preconditions appear as
hypotheses of the theorems; where an operation's debug build would abort,
the embedding picks a harmless total behaviour and the theorems only ever
invoke it with the precondition satisfied.
-/

namespace Leviathan

/-- `AvailableWindow<TimeType>`: a half-open interval `[start_inclusive,
end_exclusive)` in which a berth is available. -/
structure AvailableWindow where
  start_inclusive : Int
  end_exclusive : Int
deriving DecidableEq, Repr

/-- `t` lies in the window `w` (the half-open reading `[start, end)`). -/
def wmem (t : Int) (w : AvailableWindow) : Prop :=
  w.start_inclusive ≤ t ∧ t < w.end_exclusive

/-- `t` lies in some window of the list: the "set of time points" covered. -/
def memT (t : Int) (ws : List AvailableWindow) : Prop :=
  ∃ w ∈ ws, wmem t w

instance (t : Int) (w : AvailableWindow) : Decidable (wmem t w) := by
  unfold wmem; infer_instance

instance (t : Int) (ws : List AvailableWindow) : Decidable (memT t ws) := by
  unfold memT; infer_instance

/-- `BerthTimeline::assign(open, close)`: the windows content after the
call.  The source first clears `windows_` (so `prev` is discarded) and
pushes the single window only when `open < close`. -/
def assignRange (prev : List AvailableWindow) (opening closing : Int) :
    List AvailableWindow :=
  let _ := prev
  if opening < closing then [⟨opening, closing⟩] else []

/-- The inner `while` loop of the carving `BerthTimeline::assign
(availability, fixed_assignments)`, for one availability window ending at
`b` with running cursor `cur` (`current_start` in the source).  Returns the
windows pushed during the loop, the remaining fixed list (the position of
the shared `fixed_it` iterator), and the final cursor.  Each loop iteration
either advances `fixed_it` (the two `++fixed_it` sites) or breaks, so the
recursion is structural on the fixed list. -/
def carveLoop : List AvailableWindow → Int → Int →
    List AvailableWindow × List AvailableWindow × Int
  | [], cur, _ => ([], [], cur)
  | f :: rest, cur, b =>
    if f.start_inclusive < b then
      if f.end_exclusive ≤ cur then
        carveLoop rest cur b
      else
        let em0 : List AvailableWindow :=
          if f.start_inclusive > cur then [⟨cur, f.start_inclusive⟩] else []
        let cur1 := max cur f.end_exclusive
        if cur1 ≥ b then (em0, f :: rest, cur1)
        else if f.end_exclusive < b then
          let r := carveLoop rest cur1 b
          (em0 ++ r.1, r.2.1, r.2.2)
        else (em0, f :: rest, cur1)
    else ([], f :: rest, cur)

/-- The outer `for (const auto& avail : availability)` loop of the carving
assignment: after the inner walk, if `cursor < avail.end_exclusive` the
tail window is pushed, and the next availability window continues with the
remaining fixed list. -/
def carveAux : List AvailableWindow → List AvailableWindow →
    List AvailableWindow
  | [], _ => []
  | a :: as, fixed =>
    let r := carveLoop fixed a.start_inclusive a.end_exclusive
    let tail : List AvailableWindow :=
      if r.2.2 < a.end_exclusive then [⟨r.2.2, a.end_exclusive⟩] else []
    r.1 ++ tail ++ carveAux as r.2.1

/-- `BerthTimeline::assign(availability, fixed_assignments)` (carving
overload): the windows content after the call (the source clears
`windows_` first, so the previous content does not appear). -/
def assignCarve (availability fixed_assignments : List AvailableWindow) :
    List AvailableWindow :=
  carveAux availability fixed_assignments

/-- The full output of the carving pass for one availability window
`[cur, b)`: the windows pushed during the inner loop plus the tail window
`[cursor, b)` pushed after it when `cursor < b`. -/
def carveOut (fixed : List AvailableWindow) (cur b : Int) :
    List AvailableWindow :=
  (carveLoop fixed cur b).1 ++
    (if (carveLoop fixed cur b).2.2 < b then
      [⟨(carveLoop fixed cur b).2.2, b⟩] else [])

/-- The linear scan of `find_earliest_start` from the lower-bound position:
for each window, `actual_start = max(ready_time, start_inclusive)` and the
window fits iff `duration ≤ end_exclusive - actual_start`. -/
def findLoop (ready_time duration : Int) : List AvailableWindow → Option Int
  | [] => none
  | w :: rest =>
    let actual_start := max ready_time w.start_inclusive
    if duration ≤ w.end_exclusive - actual_start then some actual_start
    else findLoop ready_time duration rest

/-- `BerthTimeline::find_earliest_start(ready_time, duration)`.  The
source returns `nullopt` on an empty timeline, then runs
`std::lower_bound(windows_.begin(), windows_.end(), ready_time)` using
`AvailableWindow::operator<` (a window is `< t` iff `end_exclusive ≤ t`)
and scans forward.  On a range partitioned by that ordering — which the
timeline invariant guarantees — `std::lower_bound` returns the first
position whose window fails `end_exclusive ≤ ready_time`, i.e. the
`dropWhile` position. -/
def find_earliest_start (windows : List AvailableWindow)
    (ready_time duration : Int) : Option Int :=
  if windows.isEmpty then none
  else findLoop ready_time duration
    (windows.dropWhile fun w => decide (w.end_exclusive ≤ ready_time))

/-- Modelled from the spec's words for C4 ("the earliest slot in window
`[s, e)` is `actual_start = max(ready_time, s)`; it fits iff `duration ≤ e
− actual_start`", with windows ending at or before `ready_time` skipped):
a window admits a fit for the query. -/
def admitsFit (ready_time duration : Int) (w : AvailableWindow) : Bool :=
  decide (ready_time < w.end_exclusive) &&
    decide (duration ≤ w.end_exclusive -
      max ready_time w.start_inclusive)

/-- `SearchState<TimeType, IndexType, CostType>` with `TimeType = Int`,
`IndexType = Int` (stored values; container positions are `Nat`) and
`CostType = Int`.  `backtrack_move` restores the objective by assignment,
never by arithmetic, so the choice of cost carrier does not affect the
restoration laws. -/
structure SearchState where
  berth_free_times : List Int
  vessel_assignments : List Int
  vessel_start_times : List Int
  last_assigned_vessel : Int
  current_objective : Int
deriving DecidableEq, Repr

/-- `SearchState::kUnassignedVessel = -1`. -/
def kUnassignedVessel : Int := -1

/-- `SearchState(num_berths, num_vessels)`: berths free at 0, vessels
unassigned, start times 0, objective 0. -/
def SearchState.make (num_berths num_vessels : Nat) : SearchState :=
  { berth_free_times := List.replicate num_berths 0
    vessel_assignments := List.replicate num_vessels kUnassignedVessel
    vessel_start_times := List.replicate num_vessels 0
    last_assigned_vessel := kUnassignedVessel
    current_objective := 0 }

/-- `SearchState::is_assigned(v_idx)`.  The source `DCHECK`s that `v_idx`
is in range; reads are modelled with `getD`. -/
def SearchState.is_assigned (s : SearchState) (v_idx : Nat) : Bool :=
  s.vessel_assignments.getD v_idx kUnassignedVessel != kUnassignedVessel

/-- `SearchState::get_start_time(v_idx)` (requires `is_assigned`). -/
def SearchState.get_start_time (s : SearchState) (v_idx : Nat) : Int :=
  s.vessel_start_times.getD v_idx 0

/-- `SearchState::get_assigned_berth(v_idx)` (requires `is_assigned`). -/
def SearchState.get_assigned_berth (s : SearchState) (v_idx : Nat) : Int :=
  s.vessel_assignments.getD v_idx kUnassignedVessel

/-- `SearchState::apply_move(v_idx, b_idx, start_time, finish_time,
cost_delta)` (requires `!is_assigned(v_idx)`). -/
def SearchState.apply_move (s : SearchState) (v_idx b_idx : Nat)
    (start_time finish_time cost_delta : Int) : SearchState :=
  { berth_free_times := s.berth_free_times.set b_idx finish_time
    vessel_assignments := s.vessel_assignments.set v_idx (b_idx : Int)
    vessel_start_times := s.vessel_start_times.set v_idx start_time
    last_assigned_vessel := (v_idx : Int)
    current_objective := s.current_objective + cost_delta }

/-- `SearchState::backtrack_move(v_idx, b_idx, old_berth_free_time,
old_objective, old_last_vessel)`.  Note that `vessel_start_times[v_idx]`
is not written. -/
def SearchState.backtrack_move (s : SearchState) (v_idx b_idx : Nat)
    (old_berth_free_time old_objective old_last_vessel : Int) :
    SearchState :=
  { berth_free_times := s.berth_free_times.set b_idx old_berth_free_time
    vessel_assignments := s.vessel_assignments.set v_idx kUnassignedVessel
    vessel_start_times := s.vessel_start_times
    last_assigned_vessel := old_last_vessel
    current_objective := old_objective }

/-- `SearchStack<T>`: a flat `entries` tape plus `frames` of start
positions. -/
structure SearchStack (T : Type) where
  entries : List T
  frames : List Nat
deriving DecidableEq, Repr

/-- The default-constructed (empty) `SearchStack`. -/
def SearchStack.initial (T : Type) : SearchStack T := ⟨[], []⟩

/-- `SearchStack::push_frame()`: append `entries_.size()` to `frames_`. -/
def SearchStack.push_frame {T : Type} (s : SearchStack T) : SearchStack T :=
  ⟨s.entries, s.frames ++ [s.entries.length]⟩

/-- `SearchStack::pop_frame()` (`DCHECK(!frames_.empty())`): truncate
`entries_` to `frames_.back()` and pop `frames_`. -/
def SearchStack.pop_frame {T : Type} (s : SearchStack T) : SearchStack T :=
  ⟨s.entries.take (s.frames.getLastD 0), s.frames.dropLast⟩

/-- `SearchStack::push(decision)` (`DCHECK(!frames_.empty())`). -/
def SearchStack.push {T : Type} (s : SearchStack T) (decision : T) :
    SearchStack T :=
  ⟨s.entries ++ [decision], s.frames⟩

/-- `SearchStack::pop_entry()` (`DCHECK`: entries non-empty and the
current frame non-empty). -/
def SearchStack.pop_entry {T : Type} (s : SearchStack T) : SearchStack T :=
  ⟨s.entries.dropLast, s.frames⟩

/-- `SearchStack::extend(range)` (`DCHECK(!frames_.empty())`): bulk append
to the entries tape (the reserve for random-access iterators only affects
capacity). -/
def SearchStack.extend {T : Type} (s : SearchStack T) (xs : List T) :
    SearchStack T :=
  ⟨s.entries ++ xs, s.frames⟩

/-- `SearchStack::fill_frame(range)`: `push_frame()` then `extend`. -/
def SearchStack.fill_frame {T : Type} (s : SearchStack T) (xs : List T) :
    SearchStack T :=
  (s.push_frame).extend xs

/-- `SearchStack::clear()`. -/
def SearchStack.clear {T : Type} (s : SearchStack T) : SearchStack T :=
  let _ := s
  ⟨[], []⟩

/-- `SearchStack::depth()`. -/
def SearchStack.depth {T : Type} (s : SearchStack T) : Nat :=
  s.frames.length

/-- `SearchStack::current_frame_size()`. -/
def SearchStack.current_frame_size {T : Type} (s : SearchStack T) : Nat :=
  if s.frames.isEmpty then 0 else s.entries.length - s.frames.getLastD 0

namespace Delta

/-- `SearchTrail::ValueEntry` of the delta variant: `{old_value, index}`. -/
structure ValueEntry where
  old_value : Int
  index : Nat
deriving DecidableEq, Repr

/-- `SearchTrail::DirtyEntry` of the delta variant: `{index}`. -/
structure DirtyEntry where
  index : Nat
deriving DecidableEq, Repr

/-- The delta `SearchTrail`: value deltas, dirty indices, and checkpoints
of `(value_trail.size, dirty_indices.size)` pairs. -/
structure SearchTrail where
  value_trail : List ValueEntry
  dirty_indices : List DirtyEntry
  checkpoints : List (Nat × Nat)
deriving DecidableEq, Repr

/-- The default-constructed (empty) delta trail. -/
def SearchTrail.initial : SearchTrail := ⟨[], [], []⟩

/-- `SearchTrail::save_value(index, value)`. -/
def SearchTrail.save_value (tr : SearchTrail) (index : Nat) (value : Int) :
    SearchTrail :=
  ⟨tr.value_trail ++ [⟨value, index⟩], tr.dirty_indices, tr.checkpoints⟩

/-- `SearchTrail::mark_touched(index)`. -/
def SearchTrail.mark_touched (tr : SearchTrail) (index : Nat) :
    SearchTrail :=
  ⟨tr.value_trail, tr.dirty_indices ++ [⟨index⟩], tr.checkpoints⟩

/-- `SearchTrail::push_checkpoint()`. -/
def SearchTrail.push_checkpoint (tr : SearchTrail) : SearchTrail :=
  ⟨tr.value_trail, tr.dirty_indices,
    tr.checkpoints ++ [(tr.value_trail.length, tr.dirty_indices.length)]⟩

/-- `SearchTrail::backtrack(values, cleanup_op)`.  The external memory the
C++ call mutates — the `values` container written through
`values[index] = old_value` and whatever `cleanup_op` touches — is the
world `st : σ`; `write_value` is the indexed store into `values` and
`cleanup_op` the user callback.  The two `for (i = size; i > target; --i)`
loops are reverse folds over the log suffixes past the popped checkpoint
(dirty indices first, then value restorations, each most-recent-first) and
the two `resize(target)` calls are `take`. -/
def SearchTrail.backtrack {σ : Type} (tr : SearchTrail) (st : σ)
    (write_value : σ → Nat → Int → σ) (cleanup_op : σ → Nat → σ) :
    SearchTrail × σ :=
  match tr.checkpoints.getLast? with
  | none => (tr, st)
  | some cp =>
    let st1 := ((tr.dirty_indices.drop cp.2).reverse).foldl
      (fun s e => cleanup_op s e.index) st
    let st2 := ((tr.value_trail.drop cp.1).reverse).foldl
      (fun s e => write_value s e.index e.old_value) st1
    (⟨tr.value_trail.take cp.1, tr.dirty_indices.take cp.2,
      tr.checkpoints.dropLast⟩, st2)

/-- `SearchTrail::backtrack(values, dirty_target, reset_val)`: the
convenience overload, with `cleanup_op = λ idx. dirty_target[idx] =
reset_val`.  The world is the pair `(values, dirty_target)`. -/
def SearchTrail.backtrackReset (tr : SearchTrail)
    (values dirty_target : List Int) (reset_val : Int) :
    SearchTrail × List Int × List Int :=
  tr.backtrack (values, dirty_target)
    (fun s i v => (s.1.set i v, s.2))
    (fun s i => (s.1, s.2.set i reset_val))

/-- Modelled from the spec: `commit_checkpoint()` is absent from the
`search_trail.h` in src (only `search_trail_test.cpp` calls it).  Spec
§4.2: "Pop the top checkpoint without restoring.  Entries recorded in that
scope become part of the enclosing scope.  No-op when no checkpoint
exists." -/
def SearchTrail.commit_checkpoint (tr : SearchTrail) : SearchTrail :=
  ⟨tr.value_trail, tr.dirty_indices, tr.checkpoints.dropLast⟩

/-- `SearchTrail::depth()`: the number of active checkpoints. -/
def SearchTrail.depth (tr : SearchTrail) : Nat :=
  tr.checkpoints.length

/-- `SearchTrail::empty()`: whether there are no active checkpoints. -/
def SearchTrail.empty (tr : SearchTrail) : Bool :=
  tr.checkpoints.isEmpty

/-- `SearchTrail::clear()`. -/
def SearchTrail.clear (tr : SearchTrail) : SearchTrail :=
  let _ := tr
  ⟨[], [], []⟩

/-- A recording call on the delta trail: `save_value` or `mark_touched`. -/
inductive RecOp where
  | save (index : Nat) (value : Int)
  | mark (index : Nat)
deriving DecidableEq, Repr

/-- Run one recording call. -/
def applyRecOp (tr : SearchTrail) : RecOp → SearchTrail
  | .save i v => tr.save_value i v
  | .mark i => tr.mark_touched i

/-- Run a sequence of recording calls left to right. -/
def applyRecOps (tr : SearchTrail) (ops : List RecOp) : SearchTrail :=
  ops.foldl applyRecOp tr

/-- An observable event of a `backtrack` call on the external world: one
`cleanup_op(index)` invocation or one `values[index] = old_value` write.
Instantiating the world of `SearchTrail.backtrack` with an event list
records the order in which the call touches the outside. -/
inductive TraceEvent where
  | cleanup (index : Nat)
  | restore (index : Nat) (old_value : Int)
deriving DecidableEq, Repr

end Delta

namespace Bundled

/-- The bundled (generic) `SearchTrail<T>`: an entries tape of opaque
restoration bundles plus frame start positions. -/
structure SearchTrail (T : Type) where
  entries : List T
  frames : List Nat
deriving DecidableEq, Repr

/-- The default-constructed (empty) bundled trail. -/
def SearchTrail.initial (T : Type) : SearchTrail T := ⟨[], []⟩

/-- `SearchTrail::push_frame()`. -/
def SearchTrail.push_frame {T : Type} (tr : SearchTrail T) :
    SearchTrail T :=
  ⟨tr.entries, tr.frames ++ [tr.entries.length]⟩

/-- `SearchTrail::push(entry)` / `emplace(...)`. -/
def SearchTrail.push {T : Type} (tr : SearchTrail T) (entry : T) :
    SearchTrail T :=
  ⟨tr.entries ++ [entry], tr.frames⟩

/-- `SearchTrail::backtrack(undo_func)` (`DCHECK(!frames_.empty())`): pop
`start = frames_.back()`, then repeatedly `undo_func(entries_.back());
entries_.pop_back()` until `entries_.size() == start`.  The world `st : σ`
is whatever the `undo_func` callback mutates. -/
def SearchTrail.backtrack {T σ : Type} (tr : SearchTrail T) (st : σ)
    (undo_func : σ → T → σ) : SearchTrail T × σ :=
  ⟨⟨tr.entries.take (tr.frames.getLastD 0), tr.frames.dropLast⟩,
    ((tr.entries.drop (tr.frames.getLastD 0)).reverse).foldl undo_func st⟩

/-- `SearchTrail::clear()`. -/
def SearchTrail.clear {T : Type} (tr : SearchTrail T) : SearchTrail T :=
  let _ := tr
  ⟨[], []⟩

/-- `SearchTrail::depth()`. -/
def SearchTrail.depth {T : Type} (tr : SearchTrail T) : Nat :=
  tr.frames.length

end Bundled

/-- `chainB p ws` checks `p` on every pair of consecutive windows
(an executable counterpart of `List.Chain'`). -/
def chainB (p : AvailableWindow → AvailableWindow → Bool) :
    List AvailableWindow → Bool
  | a :: b :: rest => p a b && chainB p (b :: rest)
  | _ => true

/-- Consecutive windows strictly separated: `end_exclusive <` next
`start_inclusive` (a non-empty gap between them). -/
def chainSepB (ws : List AvailableWindow) : Bool :=
  chainB (fun a b => decide (a.end_exclusive < b.start_inclusive)) ws

/-- Consecutive windows sorted and disjoint: `end_exclusive ≤` next
`start_inclusive` (touching allowed). -/
def chainDisjB (ws : List AvailableWindow) : Bool :=
  chainB (fun a b => decide (a.end_exclusive ≤ b.start_inclusive)) ws

/-- Consecutive windows sorted by `start_inclusive` (non-strict): the
precondition on the `fixed` input of the carving assignment. -/
def chainStartLeB (ws : List AvailableWindow) : Bool :=
  chainB (fun a b => decide (a.start_inclusive ≤ b.start_inclusive)) ws

/-- Every window of the list is non-empty. -/
def allNonempty (ws : List AvailableWindow) : Prop :=
  ∀ w ∈ ws, w.start_inclusive < w.end_exclusive

instance (ws : List AvailableWindow) : Decidable (allNonempty ws) := by
  unfold allNonempty; infer_instance

instance : IsTrans AvailableWindow
    (fun x y => x.start_inclusive ≤ y.start_inclusive) :=
  ⟨fun _ _ _ h1 h2 => le_trans h1 h2⟩

/-- Spec §8 invariant 1 for `SearchStack`: `frames` is weakly increasing
and every element is at most `len(entries)`. -/
def StackInv {T : Type} (s : SearchStack T) : Prop :=
  List.Pairwise (fun x y => x ≤ y) s.frames ∧
    ∀ f ∈ s.frames, f ≤ s.entries.length

/-- Spec §8 invariant 1 for the bundled `SearchTrail`. -/
def FrameTrailInv {T : Type} (tr : Bundled.SearchTrail T) : Prop :=
  List.Pairwise (fun x y => x ≤ y) tr.frames ∧
    ∀ f ∈ tr.frames, f ≤ tr.entries.length

/-- States of `SearchStack` reachable from the empty stack through the
documented mutating operations with their `DCHECK`ed preconditions
satisfied.  (`fill_frame(gen)` runs `push_frame` and then lets the
generator perform documented calls on the stack handle, so its effect is a
composition of the steps below; accessors do not mutate.) -/
inductive StackReachable (T : Type) : SearchStack T → Prop where
  | initial : StackReachable T (SearchStack.initial T)
  | push_frame {s : SearchStack T} :
      StackReachable T s → StackReachable T s.push_frame
  | pop_frame {s : SearchStack T} (h : s.frames ≠ []) :
      StackReachable T s → StackReachable T s.pop_frame
  | push {s : SearchStack T} (d : T) (h : s.frames ≠ []) :
      StackReachable T s → StackReachable T (s.push d)
  | pop_entry {s : SearchStack T} (h : s.frames ≠ [])
      (h2 : s.frames.getLastD 0 < s.entries.length) :
      StackReachable T s → StackReachable T s.pop_entry
  | extend {s : SearchStack T} (xs : List T) (h : s.frames ≠ []) :
      StackReachable T s → StackReachable T (s.extend xs)
  | fill_frame {s : SearchStack T} (xs : List T) :
      StackReachable T s → StackReachable T (s.fill_frame xs)
  | clear {s : SearchStack T} :
      StackReachable T s → StackReachable T s.clear

/-- States of the bundled `SearchTrail` reachable from the empty trail
through the documented mutating operations with their preconditions
satisfied.  The trail component of `backtrack` does not depend on the
world, so the step records it directly. -/
inductive TrailReachable (T : Type) : Bundled.SearchTrail T → Prop where
  | initial : TrailReachable T (Bundled.SearchTrail.initial T)
  | push_frame {tr : Bundled.SearchTrail T} :
      TrailReachable T tr → TrailReachable T tr.push_frame
  | push {tr : Bundled.SearchTrail T} (x : T) :
      TrailReachable T tr → TrailReachable T (tr.push x)
  | backtrack {tr : Bundled.SearchTrail T} {σ : Type} (st : σ)
      (undo_func : σ → T → σ) (h : tr.frames ≠ []) :
      TrailReachable T tr → TrailReachable T (tr.backtrack st undo_func).1
  | clear {tr : Bundled.SearchTrail T} :
      TrailReachable T tr → TrailReachable T tr.clear

/-! ### Generic list lemmas -/

theorem getD_set_ne (l : List Int) (m n : Nat) (a d : Int) (h : m ≠ n) :
    (l.set m a).getD n d = l.getD n d := by
  simp [List.getD_eq_getElem?_getD, List.getElem?_set_ne h]

theorem set_getD_self (l : List Int) (n : Nat) (d : Int)
    (h : n < l.length) : l.set n (l.getD n d) = l := by
  induction l generalizing n with
  | nil => simp at h
  | cons a t ih =>
    cases n with
    | zero => simp [List.getD]
    | succ m =>
      have hm : m < t.length := by simpa using h
      have := ih m hm
      rw [List.getD_eq_getElem?_getD] at this
      simp [List.getD, this]

/-! ### C8: range assignment -/

/-- C8: `BerthTimeline::assign(open, close)` replaces the contents with
the single window `[open, close)` when `open < close` and otherwise leaves
the timeline empty; it is a total function, so no error is raised in
either case. -/
theorem assignRange_spec (prev : List AvailableWindow)
    (opening closing : Int) :
    (opening < closing →
      assignRange prev opening closing = [⟨opening, closing⟩]) ∧
    (¬ opening < closing → assignRange prev opening closing = []) := by
  constructor <;> intro h <;> simp [assignRange, h]

/-- Witness for C8 at the concrete inputs of the `AssignRange` test:
`assign(10, 100)` yields the window and `assign(100, 50)` empties. -/
theorem assignRange_spec_witness :
    assignRange [⟨5, 6⟩] 10 100 = [⟨10, 100⟩] ∧
      assignRange [⟨5, 6⟩] 100 50 = [] :=
  ⟨(assignRange_spec [⟨5, 6⟩] 10 100).1 (by decide),
   (assignRange_spec [⟨5, 6⟩] 100 50).2 (by decide)⟩

/-! ### C6: stack push/extend/pop symmetry -/

/-- C6: for every `SearchStack` and every appended sequence `xs`,
`push_frame(); extend(xs); pop_frame()` leaves both the entries tape and
the frames vector bitwise identical to their contents before
`push_frame`. -/
theorem push_extend_pop_roundtrip {T : Type} (s : SearchStack T)
    (xs : List T) : ((s.push_frame).extend xs).pop_frame = s := by
  cases s with
  | mk entries frames =>
    simp [SearchStack.push_frame, SearchStack.extend, SearchStack.pop_frame,
      List.getLastD_concat, List.dropLast_concat, List.take_left]

/-! ### C1: SearchState apply/backtrack round trip -/

/-- C1: for a legal move `(v, b, start, finish, delta)` from a state where
`v` is unassigned, backtracking with the values captured immediately
before the apply restores every field bitwise except
`vessel_start_times[v]` (which only changed at position `v`), and every
`is_assigned`-guarded read (`is_assigned`, `get_start_time`,
`get_assigned_berth` for every vessel, plus the three scalar fields)
equals its pre-apply value. -/
theorem apply_backtrack_roundtrip (s : SearchState) (v_idx b_idx : Nat)
    (start_time finish_time cost_delta : Int)
    (hv : v_idx < s.vessel_assignments.length)
    (hb : b_idx < s.berth_free_times.length)
    (hna : s.is_assigned v_idx = false) :
    let s1 := s.apply_move v_idx b_idx start_time finish_time cost_delta
    let s2 := s1.backtrack_move v_idx b_idx
      (s.berth_free_times.getD b_idx 0) s.current_objective
      s.last_assigned_vessel
    s2.berth_free_times = s.berth_free_times ∧
    s2.vessel_assignments = s.vessel_assignments ∧
    s2.vessel_start_times = s.vessel_start_times.set v_idx start_time ∧
    (∀ u, u ≠ v_idx →
      s2.vessel_start_times.getD u 0 = s.vessel_start_times.getD u 0) ∧
    s2.last_assigned_vessel = s.last_assigned_vessel ∧
    s2.current_objective = s.current_objective ∧
    (∀ u, s2.is_assigned u = s.is_assigned u) ∧
    (∀ u, s.is_assigned u = true →
      s2.get_start_time u = s.get_start_time u ∧
      s2.get_assigned_berth u = s.get_assigned_berth u) := by
  intro s1 s2
  have hva0 : s.vessel_assignments.getD v_idx kUnassignedVessel =
      kUnassignedVessel := by
    have h2 := hna
    simp only [SearchState.is_assigned, bne_eq_false_iff_eq] at h2
    exact h2
  have hbft : s2.berth_free_times = s.berth_free_times := by
    show (s.berth_free_times.set b_idx finish_time).set b_idx
        (s.berth_free_times.getD b_idx 0) = s.berth_free_times
    rw [List.set_set]
    exact set_getD_self _ _ _ hb
  have hva : s2.vessel_assignments = s.vessel_assignments := by
    show (s.vessel_assignments.set v_idx (b_idx : Int)).set v_idx
        kUnassignedVessel = s.vessel_assignments
    rw [List.set_set, ← hva0]
    exact set_getD_self _ _ _ hv
  have hvst : s2.vessel_start_times =
      s.vessel_start_times.set v_idx start_time := rfl
  refine ⟨hbft, hva, hvst, ?_, rfl, rfl, ?_, ?_⟩
  · intro u hu
    exact getD_set_ne _ _ _ _ _ (fun h => hu h.symm)
  · intro u
    simp only [SearchState.is_assigned, hva]
  · intro u hu
    have huv : u ≠ v_idx := by
      intro h
      rw [h, hna] at hu
      exact Bool.false_ne_true hu
    constructor
    · show (s.vessel_start_times.set v_idx start_time).getD u 0 =
        s.vessel_start_times.getD u 0
      exact getD_set_ne _ _ _ _ _ (fun h => huv h.symm)
    · simp only [SearchState.get_assigned_berth, hva]

/-- Witness for C1 at the spec's S1 scenario: two berths, two vessels,
`apply_move(1, 0, 100, 150, 50)` then backtrack with the captured
`(0, 0, UNASSIGNED)`. -/
theorem apply_backtrack_roundtrip_witness :
    let s := SearchState.make 2 2
    let s1 := s.apply_move 1 0 100 150 50
    let s2 := s1.backtrack_move 1 0 0 0 kUnassignedVessel
    s2.berth_free_times = s.berth_free_times ∧
    s2.vessel_assignments = s.vessel_assignments ∧
    s2.current_objective = s.current_objective := by
  have h := apply_backtrack_roundtrip (SearchState.make 2 2) 1 0 100 150 50
    (by decide) (by decide) (by decide)
  exact ⟨h.1, h.2.1, h.2.2.2.2.2.1⟩

/-! ### C9: delta trail depth/empty track only checkpoints -/

theorem applyRecOps_checkpoints (tr : Delta.SearchTrail)
    (ops : List Delta.RecOp) :
    (Delta.applyRecOps tr ops).checkpoints = tr.checkpoints := by
  induction ops generalizing tr with
  | nil => rfl
  | cons op rest ih =>
    show (Delta.applyRecOps (Delta.applyRecOp tr op) rest).checkpoints =
      tr.checkpoints
    rw [ih]
    cases op <;> rfl

/-- C9: after any number of `save_value`/`mark_touched` calls on a delta
trail with no checkpoint, `empty()` still returns `true` and `depth()`
returns `0`, and `backtrack` in that state is a no-op: it leaves the trail
(all three logs) and the external world — the `values` container and
whatever `cleanup_op` would touch — unchanged. -/
theorem empty_depth_checkpoint_only {σ : Type} (tr : Delta.SearchTrail)
    (ops : List Delta.RecOp) (h : tr.checkpoints = []) (st : σ)
    (write_value : σ → Nat → Int → σ) (cleanup_op : σ → Nat → σ) :
    (Delta.applyRecOps tr ops).empty = true ∧
    (Delta.applyRecOps tr ops).depth = 0 ∧
    (Delta.applyRecOps tr ops).backtrack st write_value cleanup_op =
      (Delta.applyRecOps tr ops, st) := by
  have hcp := applyRecOps_checkpoints tr ops
  rw [h] at hcp
  refine ⟨?_, ?_, ?_⟩
  · simp [Delta.SearchTrail.empty, hcp]
  · simp [Delta.SearchTrail.depth, hcp]
  · unfold Delta.SearchTrail.backtrack
    rw [hcp]
    rfl

/-- Witness for C9: a save and a touch on the empty trail leave it with
no checkpoints, and `backtrack` does not change the values container. -/
theorem empty_depth_checkpoint_only_witness :
    (Delta.applyRecOps Delta.SearchTrail.initial
      [Delta.RecOp.save 0 5, Delta.RecOp.mark 1]).empty = true ∧
    (Delta.applyRecOps Delta.SearchTrail.initial
      [Delta.RecOp.save 0 5, Delta.RecOp.mark 1]).backtrack
        ([0, 10] : List Int) (fun vs i v => vs.set i v)
        (fun vs _ => vs) =
      (Delta.applyRecOps Delta.SearchTrail.initial
        [Delta.RecOp.save 0 5, Delta.RecOp.mark 1], ([0, 10] : List Int)) := by
  have h := empty_depth_checkpoint_only Delta.SearchTrail.initial
    [Delta.RecOp.save 0 5, Delta.RecOp.mark 1] rfl ([0, 10] : List Int)
    (fun vs i v => vs.set i v) (fun vs _ => vs)
  exact ⟨h.1, h.2.2⟩

/-! ### C3: commit_checkpoint (spec-modelled) -/

theorem applyRecOps_checkpoint_irrelevant (ops : List Delta.RecOp)
    (vt : List Delta.ValueEntry) (di : List Delta.DirtyEntry)
    (c c' : List (Nat × Nat)) :
    Delta.applyRecOps ⟨vt, di, c⟩ ops =
      { Delta.applyRecOps ⟨vt, di, c'⟩ ops with checkpoints := c } := by
  induction ops generalizing vt di with
  | nil => rfl
  | cons op rest ih =>
    cases op with
    | save i v =>
      show Delta.applyRecOps ⟨vt ++ [⟨v, i⟩], di, c⟩ rest = _
      rw [ih]
      rfl
    | mark i =>
      show Delta.applyRecOps ⟨vt, di ++ [⟨i⟩], c⟩ rest = _
      rw [ih]
      rfl

/-- C3: `commit_checkpoint` (modelled from the spec, see its definition)
pops the top checkpoint without restoring anything — for every trail and
every sequence `W` of `save_value`/`mark_touched` calls,
`push_checkpoint; W; commit_checkpoint` yields a state equal to running
`W` without the inner checkpoint (so the depth and every later
`backtrack` agree), and on a trail with no checkpoint it is a no-op. -/
theorem commit_checkpoint_observational :
    (∀ (tr : Delta.SearchTrail) (ops : List Delta.RecOp),
      (Delta.applyRecOps tr.push_checkpoint ops).commit_checkpoint =
        Delta.applyRecOps tr ops) ∧
    (∀ tr : Delta.SearchTrail, tr.checkpoints = [] →
      tr.commit_checkpoint = tr) := by
  constructor
  · intro tr ops
    cases tr with
    | mk vt di cps =>
      show (Delta.applyRecOps ⟨vt, di,
        cps ++ [(vt.length, di.length)]⟩ ops).commit_checkpoint = _
      rw [applyRecOps_checkpoint_irrelevant ops vt di _ cps,
        applyRecOps_checkpoint_irrelevant ops vt di cps cps]
      simp [Delta.SearchTrail.commit_checkpoint, List.dropLast_concat]
  · intro tr h
    cases tr with
    | mk vt di cps =>
      simp only at h
      simp [Delta.SearchTrail.commit_checkpoint, h]

/-- Witness for C3 at the spec's S4 scenario shape: one outer save, then
a checkpointed inner save committed away; and the no-op clause on the
empty trail. -/
theorem commit_checkpoint_observational_witness :
    (Delta.applyRecOps
        (Delta.SearchTrail.save_value Delta.SearchTrail.initial 0 0
          ).push_checkpoint [Delta.RecOp.save 0 10]).commit_checkpoint =
      Delta.applyRecOps
        (Delta.SearchTrail.save_value Delta.SearchTrail.initial 0 0)
        [Delta.RecOp.save 0 10] ∧
    Delta.SearchTrail.initial.commit_checkpoint =
      Delta.SearchTrail.initial :=
  ⟨commit_checkpoint_observational.1 _ _,
   commit_checkpoint_observational.2 _ rfl⟩

/-! ### C5: delta backtrack ordering and earliest-save restoration -/

theorem foldl_snoc_map {α β : Type} (g : α → β) (l : List α)
    (init : List β) :
    l.foldl (fun s e => s ++ [g e]) init = init ++ l.map g := by
  induction l generalizing init with
  | nil => simp
  | cons a t ih => simp [ih]

theorem foldl_set_length (es : List Delta.ValueEntry) (values : List Int) :
    (es.foldl (fun vs e => vs.set e.index e.old_value) values).length =
      values.length := by
  induction es generalizing values with
  | nil => rfl
  | cons e t ih =>
    show (t.foldl _ (values.set e.index e.old_value)).length = _
    rw [ih, List.length_set]

theorem getD_set_self (l : List Int) (n : Nat) (a d : Int)
    (h : n < l.length) : (l.set n a).getD n d = a := by
  simp [List.getD_eq_getElem?_getD, List.getElem?_set_self h]

theorem foldl_set_reverse_find (es : List Delta.ValueEntry)
    (values : List Int) (i : Nat) (hi : i < values.length) :
    ((es.reverse).foldl (fun vs e => vs.set e.index e.old_value)
        values).getD i 0 =
      ((es.find? (fun e => e.index == i)).map
        Delta.ValueEntry.old_value).getD (values.getD i 0) := by
  induction es with
  | nil => simp
  | cons e t ih =>
    rw [List.reverse_cons, List.foldl_append]
    by_cases he : e.index = i
    · have hlen : i < ((t.reverse).foldl
          (fun vs x => vs.set x.index x.old_value) values).length := by
        rw [foldl_set_length]; exact hi
      rw [List.find?_cons_of_pos _ (by simpa using he)]
      simp only [List.foldl_cons, List.foldl_nil, he]
      rw [getD_set_self _ _ _ _ hlen]
      rfl
    · rw [List.find?_cons_of_neg _ (by simpa using he)]
      simp only [List.foldl_cons, List.foldl_nil]
      rw [getD_set_ne _ _ _ _ _ he]
      exact ih

theorem foldl_cleanup_fst (l : List Delta.DirtyEntry) (reset_val : Int)
    (p : List Int × List Int) :
    (l.foldl (fun s e => (s.1, s.2.set e.index reset_val)) p).1 = p.1 := by
  induction l generalizing p with
  | nil => rfl
  | cons x t ih => exact ih _

theorem foldl_write_fst (l : List Delta.ValueEntry)
    (p : List Int × List Int) :
    (l.foldl (fun s e => (s.1.set e.index e.old_value, s.2)) p).1 =
      l.foldl (fun vs e => vs.set e.index e.old_value) p.1 := by
  induction l generalizing p with
  | nil => rfl
  | cons x t ih => exact ih _

/-- C5: `backtrack` with at least one checkpoint `(tv, td)` on top first
invokes `cleanup_op` on the dirty indices recorded since that checkpoint
most-recent-first and truncates `dirty_indices` to `td`, and only then
writes the `value_trail` entries recorded since it most-recent-first and
truncates `value_trail` to `tv` (the event-trace instantiation records
exactly this sequence); consequently, when the same index was saved
several times in the scope, the value left behind is the earliest save of
the scope — the value current when the scope began. -/
theorem backtrack_order_spec (vt : List Delta.ValueEntry)
    (di : List Delta.DirtyEntry) (cps : List (Nat × Nat)) (tv td : Nat)
    (values dirty_target : List Int) (reset_val : Int) (i : Nat)
    (hi : i < values.length) :
    (Delta.SearchTrail.backtrack ⟨vt, di, cps ++ [(tv, td)]⟩
        ([] : List Delta.TraceEvent)
        (fun s j v => s ++ [Delta.TraceEvent.restore j v])
        (fun s j => s ++ [Delta.TraceEvent.cleanup j]) =
      (⟨vt.take tv, di.take td, cps⟩,
        (di.drop td).reverse.map (fun e => Delta.TraceEvent.cleanup e.index)
          ++ (vt.drop tv).reverse.map
            (fun e => Delta.TraceEvent.restore e.index e.old_value))) ∧
    ((Delta.SearchTrail.backtrackReset ⟨vt, di, cps ++ [(tv, td)]⟩
        values dirty_target reset_val).2.1.getD i 0 =
      (((vt.drop tv).find? (fun e => e.index == i)).map
        Delta.ValueEntry.old_value).getD (values.getD i 0)) := by
  constructor
  · unfold Delta.SearchTrail.backtrack
    rw [List.getLast?_concat]
    simp only [List.dropLast_concat, foldl_snoc_map]
    simp
  · unfold Delta.SearchTrail.backtrackReset Delta.SearchTrail.backtrack
    rw [List.getLast?_concat]
    simp only
    rw [foldl_write_fst, foldl_cleanup_fst]
    exact foldl_set_reverse_find _ _ _ hi

/-- Witness for C5: the scope saved index 0 twice (old values 0 then 10);
backtracking leaves `values[0] = 0`, the earliest save of the scope. -/
theorem backtrack_order_spec_witness :
    (Delta.SearchTrail.backtrackReset ⟨[⟨0, 0⟩, ⟨10, 0⟩], [⟨1⟩], [(0, 0)]⟩
      ([20, 30] : List Int) ([7] : List Int) (-1)).2.1.getD 0 0 = 0 := by
  have h := backtrack_order_spec [⟨0, 0⟩, ⟨10, 0⟩] [⟨1⟩] [] 0 0
    ([20, 30] : List Int) ([7] : List Int) (-1) 0 (by decide)
  exact h.2.trans (by decide)

/-! ### C7: frame invariant under all documented operations -/

theorem pairwise_le_getLastD (l : List Nat)
    (hp : List.Pairwise (fun x y => x ≤ y) l) (x : Nat) (hx : x ∈ l) :
    x ≤ l.getLastD 0 := by
  induction l with
  | nil => simp at hx
  | cons a t ih =>
    cases t with
    | nil =>
      rcases List.mem_singleton.mp hx with rfl
      rfl
    | cons b t' =>
      have hgl : (a :: b :: t').getLastD 0 = (b :: t').getLastD 0 := by
        rw [List.getLastD_eq_getLast?, List.getLastD_eq_getLast?,
          List.getLast?_cons_cons]
      rw [hgl]
      rcases List.pairwise_cons.mp hp with ⟨ha, hp'⟩
      rcases List.mem_cons.mp hx with rfl | hx'
      · have hmem : (b :: t').getLastD 0 ∈ b :: t' := by
          rw [show (b :: t').getLastD 0 = t'.getLastD b from
            List.getLastD_cons 0 b t']
          exact List.getLastD_mem_cons t' b
        exact ha _ hmem
      · exact ih hp' hx'

theorem frames_inv_push (F : List Nat) (n : Nat)
    (hp : List.Pairwise (fun x y => x ≤ y) F) (hb : ∀ f ∈ F, f ≤ n) :
    List.Pairwise (fun x y => x ≤ y) (F ++ [n]) ∧
      ∀ f ∈ F ++ [n], f ≤ n := by
  constructor
  · rw [List.pairwise_append]
    exact ⟨hp, List.pairwise_singleton _ _,
      fun x hx y hy => by
        rcases List.mem_singleton.mp hy with rfl
        exact hb x hx⟩
  · intro f hf
    rcases List.mem_append.mp hf with hf' | hf'
    · exact hb f hf'
    · rcases List.mem_singleton.mp hf' with rfl
      exact le_refl _

theorem frames_inv_pop (F : List Nat) (n : Nat)
    (hp : List.Pairwise (fun x y => x ≤ y) F) (hb : ∀ f ∈ F, f ≤ n) :
    List.Pairwise (fun x y => x ≤ y) F.dropLast ∧
      ∀ f ∈ F.dropLast, f ≤ min (F.getLastD 0) n := by
  constructor
  · exact hp.sublist (List.dropLast_sublist F)
  · intro f hf
    have hfF : f ∈ F := (List.dropLast_sublist F).subset hf
    exact le_min (pairwise_le_getLastD F hp f hfF) (hb f hfF)

/-- C7: in both `SearchStack` and the bundled `SearchTrail`, after every
sequence of documented operations executed with their preconditions
satisfied, starting from the empty structure, the `frames` vector is
weakly increasing and every element is at most the current length of
`entries`. -/
theorem frames_invariant_reachable :
    (∀ (T : Type) (s : SearchStack T), StackReachable T s → StackInv s) ∧
    (∀ (T : Type) (tr : Bundled.SearchTrail T), TrailReachable T tr →
      FrameTrailInv tr) := by
  constructor
  · intro T s h
    induction h with
    | initial => exact ⟨List.Pairwise.nil, by simp [SearchStack.initial]⟩
    | @push_frame s _ ih =>
      exact frames_inv_push s.frames s.entries.length ih.1 ih.2
    | @pop_frame s hne _ ih =>
      have h2 := frames_inv_pop s.frames s.entries.length ih.1 ih.2
      refine ⟨h2.1, fun f hf => ?_⟩
      have := h2.2 f hf
      simpa [SearchStack.pop_frame, List.length_take] using this
    | @push s d hne _ ih =>
      refine ⟨ih.1, fun f hf => ?_⟩
      have := ih.2 f hf
      simp only [SearchStack.push, List.length_append, List.length_singleton]
      omega
    | @pop_entry s hne h2 _ ih =>
      refine ⟨ih.1, fun f hf => ?_⟩
      have hfl := pairwise_le_getLastD s.frames ih.1 f hf
      simp only [SearchStack.pop_entry, List.length_dropLast]
      omega
    | @extend s xs hne _ ih =>
      refine ⟨ih.1, fun f hf => ?_⟩
      have := ih.2 f hf
      simp only [SearchStack.extend, List.length_append]
      omega
    | @fill_frame s xs _ ih =>
      have h1 := frames_inv_push s.frames s.entries.length ih.1 ih.2
      refine ⟨h1.1, fun f hf => ?_⟩
      have := h1.2 f hf
      simp only [SearchStack.fill_frame, SearchStack.extend,
        SearchStack.push_frame, List.length_append]
      omega
    | @clear s _ ih =>
      exact ⟨List.Pairwise.nil, by simp [SearchStack.clear]⟩
  · intro T tr h
    induction h with
    | initial =>
      exact ⟨List.Pairwise.nil, by simp [Bundled.SearchTrail.initial]⟩
    | @push_frame tr _ ih =>
      exact frames_inv_push tr.frames tr.entries.length ih.1 ih.2
    | @push tr x _ ih =>
      refine ⟨ih.1, fun f hf => ?_⟩
      have := ih.2 f hf
      simp only [Bundled.SearchTrail.push, List.length_append,
        List.length_singleton]
      omega
    | @backtrack tr σ st undo_func hne _ ih =>
      have h2 := frames_inv_pop tr.frames tr.entries.length ih.1 ih.2
      refine ⟨h2.1, fun f hf => ?_⟩
      have := h2.2 f hf
      simpa [Bundled.SearchTrail.backtrack, List.length_take] using this
    | @clear tr _ ih =>
      exact ⟨List.Pairwise.nil, by simp [Bundled.SearchTrail.clear]⟩

/-- Witness for C7: a short legal interaction on each structure, reached
through the step relation, satisfies the invariant. -/
theorem frames_invariant_reachable_witness :
    StackInv (((SearchStack.initial Nat).push_frame).push 7) ∧
    FrameTrailInv ((Bundled.SearchTrail.initial Nat).push_frame) :=
  ⟨frames_invariant_reachable.1 Nat _
      (StackReachable.push 7
        (by simp [SearchStack.initial, SearchStack.push_frame])
        (StackReachable.push_frame StackReachable.initial)),
   frames_invariant_reachable.2 Nat _
      (TrailReachable.push_frame TrailReachable.initial)⟩

/-! ### C4 / C10: find_earliest_start -/

theorem chainB_cons_cons (p : AvailableWindow → AvailableWindow → Bool)
    (a b : AvailableWindow) (t : List AvailableWindow) :
    chainB p (a :: b :: t) = (p a b && chainB p (b :: t)) := rfl

theorem chainB_tail (p : AvailableWindow → AvailableWindow → Bool)
    (a : AvailableWindow) (t : List AvailableWindow)
    (h : chainB p (a :: t) = true) : chainB p t = true := by
  cases t with
  | nil => rfl
  | cons b t' =>
    rw [chainB_cons_cons, Bool.and_eq_true] at h
    exact h.2

theorem chainB_head (p : AvailableWindow → AvailableWindow → Bool)
    (a b : AvailableWindow) (t : List AvailableWindow)
    (h : chainB p (a :: b :: t) = true) : p a b = true := by
  rw [chainB_cons_cons, Bool.and_eq_true] at h
  exact h.1

theorem all_end_gt (r : Int) (a : AvailableWindow)
    (t : List AvailableWindow) (hlt : r < a.end_exclusive)
    (hc : chainDisjB (a :: t) = true) (hne : allNonempty (a :: t)) :
    ∀ w ∈ a :: t, r < w.end_exclusive := by
  induction t generalizing a with
  | nil =>
    intro w hw
    rcases List.mem_singleton.mp hw with rfl
    exact hlt
  | cons b t' ih =>
    intro w hw
    have hab : a.end_exclusive ≤ b.start_inclusive := by
      have := chainB_head _ a b t' hc
      simpa using this
    have hbne : b.start_inclusive < b.end_exclusive :=
      hne b (by simp)
    have hrb : r < b.end_exclusive := by omega
    rcases List.mem_cons.mp hw with rfl | hw'
    · exact hlt
    · exact ih b hrb (chainB_tail _ a (b :: t') hc)
        (fun x hx => hne x (List.mem_cons_of_mem a hx)) w hw'

theorem dropWhile_end_gt (r : Int) (ws : List AvailableWindow)
    (hc : chainDisjB ws = true) (hne : allNonempty ws) :
    ∀ w ∈ ws.dropWhile (fun w => decide (w.end_exclusive ≤ r)),
      r < w.end_exclusive := by
  induction ws with
  | nil => simp
  | cons a t ih =>
    by_cases hp : a.end_exclusive ≤ r
    · rw [List.dropWhile_cons_of_pos (by simpa using hp)]
      exact ih (chainB_tail _ a t hc)
        (fun x hx => hne x (List.mem_cons_of_mem a hx))
    · rw [List.dropWhile_cons_of_neg (by simpa using hp)]
      exact all_end_gt r a t (by omega) hc hne

theorem findLoop_eq_find (r d : Int) (l : List AvailableWindow)
    (hall : ∀ w ∈ l, r < w.end_exclusive) :
    findLoop r d l = (l.find? (admitsFit r d)).map
      (fun w => max r w.start_inclusive) := by
  induction l with
  | nil => rfl
  | cons w t ih =>
    have hw : r < w.end_exclusive := hall w (by simp)
    by_cases hfit : d ≤ w.end_exclusive - max r w.start_inclusive
    · rw [List.find?_cons_of_pos _ (by simp [admitsFit, hw, hfit])]
      simp [findLoop, hfit]
    · rw [List.find?_cons_of_neg _ (by simp [admitsFit, hfit])]
      rw [show findLoop r d (w :: t) = findLoop r d t from by
        simp [findLoop, hfit]]
      exact ih (fun x hx => hall x (List.mem_cons_of_mem w hx))

theorem find_eq_find_admitsFit (windows : List AvailableWindow)
    (r d : Int) (hc : chainDisjB windows = true)
    (hne : allNonempty windows) :
    find_earliest_start windows r d =
      (windows.find? (admitsFit r d)).map
        (fun w => max r w.start_inclusive) := by
  unfold find_earliest_start
  by_cases hwe : windows.isEmpty
  · rcases List.isEmpty_iff.mp hwe with rfl
    simp
  · rw [if_neg hwe]
    have hsplit := List.takeWhile_append_dropWhile
      (fun w => decide (w.end_exclusive ≤ r)) windows
    have htake : (windows.takeWhile
        (fun w => decide (w.end_exclusive ≤ r))).find?
          (admitsFit r d) = none := by
      rw [List.find?_eq_none]
      intro x hx
      have hxe : x.end_exclusive ≤ r := by
        have := List.mem_takeWhile_imp hx
        simpa using this
      simp [admitsFit]
      intro h
      omega
    conv_rhs => rw [← hsplit]
    rw [List.find?_append, htake, Option.none_or]
    exact findLoop_eq_find r d _ (dropWhile_end_gt r windows hc hne)

/-- C4: on a timeline whose windows are sorted, disjoint and non-empty,
`find_earliest_start(ready_time, duration)` skips exactly the windows with
`end_exclusive ≤ ready_time` (the lower-bound on the window ordering),
scans forward, and returns `max(ready_time, start_inclusive)` for the
first window `[s, e)` with `ready_time < e` and `duration ≤ e −
max(ready_time, s)`; if no window qualifies — in particular on the empty
timeline — it returns an absent result.  Stated as: the code computes
`find?` of the spec-side fit predicate `admitsFit`, mapped to the actual
start. -/
theorem find_earliest_start_spec (windows : List AvailableWindow)
    (ready_time duration : Int) (hc : chainDisjB windows = true)
    (hne : allNonempty windows) :
    find_earliest_start windows ready_time duration =
      (windows.find? (admitsFit ready_time duration)).map
        (fun w => max ready_time w.start_inclusive) :=
  find_eq_find_admitsFit windows ready_time duration hc hne

/-- Witness for C4 at the spec's S6 scenario: window `(0, 100)` with query
`(10, 20)` yields `10`; window `(200, 300)` with the same query yields
`200`; a duration larger than any window yields an absent result. -/
theorem find_earliest_start_spec_witness :
    find_earliest_start [⟨0, 100⟩] 10 20 = some 10 ∧
    find_earliest_start [⟨200, 300⟩] 10 20 = some 200 ∧
    find_earliest_start [⟨200, 300⟩] 10 2000 = none :=
  ⟨(find_earliest_start_spec [⟨0, 100⟩] 10 20 (by decide)
      (by decide)).trans (by decide),
   (find_earliest_start_spec [⟨200, 300⟩] 10 20 (by decide)
      (by decide)).trans (by decide),
   (find_earliest_start_spec [⟨200, 300⟩] 10 2000 (by decide)
      (by decide)).trans (by decide)⟩

theorem find?_congr_mem {α : Type} (l : List α) (p q : α → Bool)
    (h : ∀ x ∈ l, p x = q x) : l.find? p = l.find? q := by
  induction l with
  | nil => rfl
  | cons a t ih =>
    rw [List.find?_cons, List.find?_cons, h a (by simp)]
    cases q a
    · exact ih (fun x hx => h x (List.mem_cons_of_mem a hx))
    · rfl

/-- C10: `find_earliest_start` does not validate `duration`: on a sorted,
disjoint, non-empty-window timeline, for any `duration ≤ 0`, if the
timeline contains a window ending after `ready_time` then the query
returns `max(ready_time, start_inclusive)` of the first such window
rather than an absent result, because `duration ≤ end_exclusive −
actual_start` is trivially satisfied there. -/
theorem find_earliest_start_nonpos_duration
    (windows : List AvailableWindow) (ready_time duration : Int)
    (hd : duration ≤ 0) (hc : chainDisjB windows = true)
    (hne : allNonempty windows) (w : AvailableWindow)
    (hw : windows.find? (fun x => decide (ready_time < x.end_exclusive)) =
      some w) :
    find_earliest_start windows ready_time duration =
      some (max ready_time w.start_inclusive) := by
  rw [find_eq_find_admitsFit windows ready_time duration hc hne]
  have hcong : windows.find? (admitsFit ready_time duration) =
      windows.find? (fun x => decide (ready_time < x.end_exclusive)) := by
    apply find?_congr_mem
    intro x hx
    have hxne : x.start_inclusive < x.end_exclusive := hne x hx
    by_cases hr : ready_time < x.end_exclusive
    · have hm : max ready_time x.start_inclusive < x.end_exclusive :=
        max_lt hr hxne
      simp [admitsFit, hr]
      omega
    · simp [admitsFit, hr]
  rw [hcong, hw]
  rfl

/-- Witness for C10: duration `-3` on the timeline `[(5, 10)]` with
`ready_time = 0` returns `5`, not an absent result. -/
theorem find_earliest_start_nonpos_duration_witness :
    find_earliest_start [⟨5, 10⟩] 0 (-3) = some 5 := by
  have h := find_earliest_start_nonpos_duration [⟨5, 10⟩] 0 (-3)
    (by decide) (by decide) (by decide) ⟨5, 10⟩ (by decide)
  simpa using h

/-! ### C2: carving -/

theorem memT_nil (t : Int) : ¬ memT t [] := by simp [memT]

theorem memT_cons (t : Int) (w : AvailableWindow)
    (ws : List AvailableWindow) :
    memT t (w :: ws) ↔ wmem t w ∨ memT t ws := by
  simp [memT, List.mem_cons, or_and_right, exists_or]

theorem memT_singleton (t : Int) (w : AvailableWindow) :
    memT t [w] ↔ wmem t w := by
  simp [memT]

theorem memT_append (t : Int) (l1 l2 : List AvailableWindow) :
    memT t (l1 ++ l2) ↔ memT t l1 ∨ memT t l2 := by
  simp [memT, List.mem_append, or_and_right, exists_or]

theorem carveLoop_stop (f : AvailableWindow)
    (rest : List AvailableWindow) (cur b : Int)
    (h1 : ¬ f.start_inclusive < b) :
    carveLoop (f :: rest) cur b = ([], f :: rest, cur) := by
  simp [carveLoop, h1]

theorem carveLoop_skip (f : AvailableWindow)
    (rest : List AvailableWindow) (cur b : Int)
    (h1 : f.start_inclusive < b) (h2 : f.end_exclusive ≤ cur) :
    carveLoop (f :: rest) cur b = carveLoop rest cur b := by
  simp [carveLoop, h1, h2]

theorem carveLoop_break (f : AvailableWindow)
    (rest : List AvailableWindow) (cur b : Int)
    (h1 : f.start_inclusive < b) (h2 : ¬ f.end_exclusive ≤ cur)
    (h3 : max cur f.end_exclusive ≥ b) :
    carveLoop (f :: rest) cur b =
      ((if f.start_inclusive > cur then
          [⟨cur, f.start_inclusive⟩] else []),
        f :: rest, max cur f.end_exclusive) := by
  simp [carveLoop, h1, h2, h3]

theorem carveLoop_advance (f : AvailableWindow)
    (rest : List AvailableWindow) (cur b : Int)
    (h1 : f.start_inclusive < b) (h2 : ¬ f.end_exclusive ≤ cur)
    (h3 : ¬ max cur f.end_exclusive ≥ b) :
    carveLoop (f :: rest) cur b =
      ((if f.start_inclusive > cur then
          [⟨cur, f.start_inclusive⟩] else []) ++
          (carveLoop rest (max cur f.end_exclusive) b).1,
        (carveLoop rest (max cur f.end_exclusive) b).2.1,
        (carveLoop rest (max cur f.end_exclusive) b).2.2) := by
  have hM2 := le_max_right cur f.end_exclusive
  have h4 : f.end_exclusive < b := by omega
  simp [carveLoop, h1, h2, h3, h4]

theorem carveLoop_mem (fixed : List AvailableWindow) (cur b : Int)
    (hcur : cur < b)
    (hsorted : List.Pairwise
      (fun x y => x.start_inclusive ≤ y.start_inclusive) fixed)
    (t : Int) :
    (memT t (carveLoop fixed cur b).1 ∨
      ((carveLoop fixed cur b).2.2 ≤ t ∧ t < b)) ↔
      (cur ≤ t ∧ t < b ∧ ¬ memT t fixed) := by
  induction fixed generalizing cur with
  | nil => simp [carveLoop, memT]
  | cons f rest ih =>
    rcases List.pairwise_cons.mp hsorted with ⟨hf, hrest⟩
    by_cases h1 : f.start_inclusive < b
    · by_cases h2 : f.end_exclusive ≤ cur
      · rw [carveLoop_skip f rest cur b h1 h2, ih cur hcur hrest]
        constructor
        · rintro ⟨hc, hb, hn⟩
          refine ⟨hc, hb, ?_⟩
          rw [memT_cons]
          rintro (hw | hm)
          · simp [wmem] at hw
            omega
          · exact hn hm
        · rintro ⟨hc, hb, hn⟩
          exact ⟨hc, hb, fun hm => hn ((memT_cons t f rest).mpr (Or.inr hm))⟩
      · have hM1 := le_max_left cur f.end_exclusive
        have hM2 := le_max_right cur f.end_exclusive
        have hM3 := max_choice cur f.end_exclusive
        by_cases h3 : max cur f.end_exclusive ≥ b
        · rw [carveLoop_break f rest cur b h1 h2 h3]
          dsimp only
          by_cases hgt : f.start_inclusive > cur
          · rw [if_pos hgt, memT_singleton]
            constructor
            · rintro (hw | ⟨hM, hb⟩)
              · simp only [wmem] at hw
                refine ⟨hw.1, by omega, ?_⟩
                rw [memT_cons]
                rintro (hwf | ⟨g, hg, hgw⟩)
                · simp only [wmem] at hwf
                  omega
                · have := hf g hg
                  simp only [wmem] at hgw
                  omega
              · exact (by omega : False).elim
            · rintro ⟨hc, hb, hn⟩
              rw [memT_cons] at hn
              have hnf : ¬ wmem t f := fun hh => hn (Or.inl hh)
              simp only [wmem] at hnf
              left
              simp only [wmem]
              omega
          · rw [if_neg hgt]
            constructor
            · rintro (hF | ⟨hM, hb⟩)
              · exact absurd hF (memT_nil t)
              · exact (by omega : False).elim
            · rintro ⟨hc, hb, hn⟩
              exfalso
              rw [memT_cons] at hn
              have hnf : ¬ wmem t f := fun hh => hn (Or.inl hh)
              simp only [wmem] at hnf
              omega
        · rw [carveLoop_advance f rest cur b h1 h2 h3]
          dsimp only
          have hcur1 : max cur f.end_exclusive < b := by omega
          have hih := ih (max cur f.end_exclusive) hcur1 hrest
          rw [memT_append, or_assoc, hih]
          by_cases hgt : f.start_inclusive > cur
          · rw [if_pos hgt, memT_singleton]
            constructor
            · rintro (hw | ⟨hc1, hb, hn⟩)
              · simp only [wmem] at hw
                refine ⟨by omega, by omega, ?_⟩
                rw [memT_cons]
                rintro (hwf | ⟨g, hg, hgw⟩)
                · simp only [wmem] at hwf
                  omega
                · have := hf g hg
                  simp only [wmem] at hgw
                  omega
              · refine ⟨by omega, hb, ?_⟩
                rw [memT_cons]
                rintro (hwf | hm)
                · simp only [wmem] at hwf
                  omega
                · exact hn hm
            · rintro ⟨hc, hb, hn⟩
              rw [memT_cons] at hn
              have hnf : ¬ wmem t f := fun hh => hn (Or.inl hh)
              have hnr : ¬ memT t rest := fun hh => hn (Or.inr hh)
              simp only [wmem] at hnf
              by_cases hge : f.end_exclusive ≤ t
              · right
                exact ⟨by omega, hb, hnr⟩
              · left
                simp only [wmem]
                omega
          · rw [if_neg hgt]
            constructor
            · rintro (hF | ⟨hc1, hb, hn⟩)
              · exact absurd hF (memT_nil t)
              · refine ⟨by omega, hb, ?_⟩
                rw [memT_cons]
                rintro (hwf | hm)
                · simp only [wmem] at hwf
                  omega
                · exact hn hm
            · rintro ⟨hc, hb, hn⟩
              rw [memT_cons] at hn
              have hnf : ¬ wmem t f := fun hh => hn (Or.inl hh)
              have hnr : ¬ memT t rest := fun hh => hn (Or.inr hh)
              simp only [wmem] at hnf
              right
              exact ⟨by omega, hb, hnr⟩
    · rw [carveLoop_stop f rest cur b h1]
      dsimp only
      constructor
      · rintro (hF | ⟨hc, hb⟩)
        · exact absurd hF (memT_nil t)
        · refine ⟨hc, hb, ?_⟩
          rintro ⟨g, hg, hgw⟩
          have hgs : f.start_inclusive ≤ g.start_inclusive := by
            rcases List.mem_cons.mp hg with rfl | hg'
            · exact le_refl _
            · exact hf g hg'
          simp only [wmem] at hgw
          omega
      · rintro ⟨hc, hb, _⟩
        exact Or.inr ⟨hc, hb⟩

theorem carveLoop_rem_sublist (fixed : List AvailableWindow)
    (cur b : Int) : (carveLoop fixed cur b).2.1.Sublist fixed := by
  induction fixed generalizing cur with
  | nil => simp [carveLoop]
  | cons f rest ih =>
    by_cases h1 : f.start_inclusive < b
    · by_cases h2 : f.end_exclusive ≤ cur
      · rw [carveLoop_skip f rest cur b h1 h2]
        exact (ih cur).cons f
      · by_cases h3 : max cur f.end_exclusive ≥ b
        · rw [carveLoop_break f rest cur b h1 h2 h3]
        · rw [carveLoop_advance f rest cur b h1 h2 h3]
          exact (ih _).cons f
    · rw [carveLoop_stop f rest cur b h1]

theorem carveLoop_rem_mem_ge (fixed : List AvailableWindow) (cur b : Int)
    (hcur : cur < b) (t : Int) (hbt : b ≤ t) :
    memT t fixed ↔ memT t (carveLoop fixed cur b).2.1 := by
  induction fixed generalizing cur with
  | nil => simp [carveLoop]
  | cons f rest ih =>
    by_cases h1 : f.start_inclusive < b
    · by_cases h2 : f.end_exclusive ≤ cur
      · rw [carveLoop_skip f rest cur b h1 h2]
        have hnf : ¬ wmem t f := by
          simp only [wmem]
          omega
        rw [memT_cons, or_iff_right hnf]
        exact ih cur hcur
      · have hM1 := le_max_left cur f.end_exclusive
        have hM2 := le_max_right cur f.end_exclusive
        by_cases h3 : max cur f.end_exclusive ≥ b
        · rw [carveLoop_break f rest cur b h1 h2 h3]
        · rw [carveLoop_advance f rest cur b h1 h2 h3]
          dsimp only
          have hnf : ¬ wmem t f := by
            simp only [wmem]
            omega
          rw [memT_cons, or_iff_right hnf]
          exact ih _ (by omega)
    · rw [carveLoop_stop f rest cur b h1]

theorem carveOut_nil (cur b : Int) (hcur : cur < b) :
    carveOut [] cur b = [⟨cur, b⟩] := by
  unfold carveOut
  rw [show carveLoop [] cur b = ([], [], cur) from rfl]
  dsimp only
  rw [if_pos hcur]
  rfl

theorem carveOut_stop (f : AvailableWindow) (rest : List AvailableWindow)
    (cur b : Int) (hcur : cur < b) (h1 : ¬ f.start_inclusive < b) :
    carveOut (f :: rest) cur b = [⟨cur, b⟩] := by
  unfold carveOut
  rw [carveLoop_stop f rest cur b h1]
  dsimp only
  rw [if_pos hcur]
  rfl

theorem carveOut_skip (f : AvailableWindow) (rest : List AvailableWindow)
    (cur b : Int) (h1 : f.start_inclusive < b)
    (h2 : f.end_exclusive ≤ cur) :
    carveOut (f :: rest) cur b = carveOut rest cur b := by
  unfold carveOut
  rw [carveLoop_skip f rest cur b h1 h2]

theorem carveOut_break (f : AvailableWindow) (rest : List AvailableWindow)
    (cur b : Int) (h1 : f.start_inclusive < b)
    (h2 : ¬ f.end_exclusive ≤ cur) (h3 : max cur f.end_exclusive ≥ b) :
    carveOut (f :: rest) cur b =
      (if f.start_inclusive > cur then
        [⟨cur, f.start_inclusive⟩] else []) := by
  unfold carveOut
  rw [carveLoop_break f rest cur b h1 h2 h3]
  dsimp only
  rw [if_neg (by omega : ¬ max cur f.end_exclusive < b)]
  simp

theorem carveOut_advance (f : AvailableWindow)
    (rest : List AvailableWindow) (cur b : Int)
    (h1 : f.start_inclusive < b) (h2 : ¬ f.end_exclusive ≤ cur)
    (h3 : ¬ max cur f.end_exclusive ≥ b) :
    carveOut (f :: rest) cur b =
      (if f.start_inclusive > cur then
        [⟨cur, f.start_inclusive⟩] else []) ++
        carveOut rest (max cur f.end_exclusive) b := by
  unfold carveOut
  rw [carveLoop_advance f rest cur b h1 h2 h3]
  dsimp only
  rw [List.append_assoc]

theorem carveLoop_emit (fixed : List AvailableWindow) (cur b : Int)
    (hcur : cur < b) (hne : allNonempty fixed) :
    (∀ w ∈ carveOut fixed cur b,
      cur ≤ w.start_inclusive ∧ w.start_inclusive < w.end_exclusive ∧
        w.end_exclusive ≤ b) ∧
    List.Chain' (fun x y => x.end_exclusive < y.start_inclusive)
      (carveOut fixed cur b) := by
  induction fixed generalizing cur with
  | nil =>
    rw [carveOut_nil cur b hcur]
    refine ⟨?_, List.chain'_singleton _⟩
    intro w hw
    rcases List.mem_singleton.mp hw with rfl
    exact ⟨le_refl _, hcur, le_refl _⟩
  | cons f rest ih =>
    have hfne : f.start_inclusive < f.end_exclusive := hne f (by simp)
    have hrestne : allNonempty rest :=
      fun x hx => hne x (List.mem_cons_of_mem f hx)
    by_cases h1 : f.start_inclusive < b
    · by_cases h2 : f.end_exclusive ≤ cur
      · rw [carveOut_skip f rest cur b h1 h2]
        exact ih cur hcur hrestne
      · have hM1 := le_max_left cur f.end_exclusive
        have hM2 := le_max_right cur f.end_exclusive
        by_cases h3 : max cur f.end_exclusive ≥ b
        · rw [carveOut_break f rest cur b h1 h2 h3]
          by_cases hgt : f.start_inclusive > cur
          · rw [if_pos hgt]
            refine ⟨?_, List.chain'_singleton _⟩
            intro w hw
            rcases List.mem_singleton.mp hw with rfl
            refine ⟨le_refl _, hgt, ?_⟩
            show f.start_inclusive ≤ b
            omega
          · rw [if_neg hgt]
            exact ⟨by simp, List.chain'_nil⟩
        · rw [carveOut_advance f rest cur b h1 h2 h3]
          have hih := ih (max cur f.end_exclusive) (by omega) hrestne
          by_cases hgt : f.start_inclusive > cur
          · rw [if_pos hgt, List.singleton_append]
            constructor
            · intro w hw
              rcases List.mem_cons.mp hw with rfl | hw'
              refine ⟨le_refl _, hgt, ?_⟩
              show f.start_inclusive ≤ b
              omega
              · have := hih.1 w hw'
                exact ⟨by omega, this.2.1, this.2.2⟩
            · rw [List.chain'_cons']
              refine ⟨?_, hih.2⟩
              intro y hy
              have hym := List.mem_of_mem_head? hy
              have := hih.1 y hym
              dsimp only
              omega
          · rw [if_neg hgt, List.nil_append]
            constructor
            · intro w hw
              have := hih.1 w hw
              exact ⟨by omega, this.2.1, this.2.2⟩
            · exact hih.2
    · rw [carveOut_stop f rest cur b hcur h1]
      refine ⟨?_, List.chain'_singleton _⟩
      intro w hw
      rcases List.mem_singleton.mp hw with rfl
      exact ⟨le_refl _, hcur, le_refl _⟩

theorem carveAux_cons (a : AvailableWindow)
    (as fixed : List AvailableWindow) :
    carveAux (a :: as) fixed =
      carveOut fixed a.start_inclusive a.end_exclusive ++
        carveAux as
          (carveLoop fixed a.start_inclusive a.end_exclusive).2.1 := by
  simp [carveAux, carveOut, List.append_assoc]

theorem carveOut_mem (fixed : List AvailableWindow) (cur b : Int)
    (hcur : cur < b)
    (hfsorted : List.Pairwise
      (fun x y => x.start_inclusive ≤ y.start_inclusive) fixed)
    (t : Int) :
    memT t (carveOut fixed cur b) ↔
      (cur ≤ t ∧ t < b ∧ ¬ memT t fixed) := by
  unfold carveOut
  rw [memT_append]
  have htail : memT t (if (carveLoop fixed cur b).2.2 < b then
      [(⟨(carveLoop fixed cur b).2.2, b⟩ : AvailableWindow)] else []) ↔
      ((carveLoop fixed cur b).2.2 ≤ t ∧ t < b) := by
    split_ifs with hcv
    · rw [memT_singleton]
      simp [wmem]
    · constructor
      · intro hF
        exact absurd hF (memT_nil t)
      · rintro ⟨h1', h2'⟩
        exact (by omega : False).elim
  rw [htail]
  exact carveLoop_mem fixed cur b hcur hfsorted t

theorem avail_head_sep (a : AvailableWindow) (as : List AvailableWindow)
    (hne : allNonempty (a :: as))
    (hchain : List.Chain'
      (fun x y => x.end_exclusive < y.start_inclusive) (a :: as)) :
    ∀ g ∈ as, a.end_exclusive < g.start_inclusive := by
  induction as generalizing a with
  | nil => simp
  | cons b t ih =>
    intro g hg
    have hab : a.end_exclusive < b.start_inclusive :=
      (List.chain'_cons'.mp hchain).1 b rfl
    rcases List.mem_cons.mp hg with rfl | hg'
    · exact hab
    · have hbg := ih b (fun x hx => hne x (List.mem_cons_of_mem a hx))
        (List.chain'_cons'.mp hchain).2 g hg'
      have hbne := hne b (by simp)
      omega

theorem carveAux_mem (avail fixed : List AvailableWindow)
    (hane : allNonempty avail)
    (hasep : List.Chain'
      (fun x y => x.end_exclusive < y.start_inclusive) avail)
    (hfsorted : List.Pairwise
      (fun x y => x.start_inclusive ≤ y.start_inclusive) fixed)
    (t : Int) :
    memT t (carveAux avail fixed) ↔
      (memT t avail ∧ ¬ memT t fixed) := by
  induction avail generalizing fixed with
  | nil => simp [carveAux, memT]
  | cons a as ih =>
    have ha : a.start_inclusive < a.end_exclusive := hane a (by simp)
    rw [carveAux_cons, memT_append,
      carveOut_mem fixed a.start_inclusive a.end_exclusive ha hfsorted t]
    have hrem := carveLoop_rem_sublist fixed a.start_inclusive
      a.end_exclusive
    have hih := ih (carveLoop fixed a.start_inclusive a.end_exclusive).2.1
      (fun x hx => hane x (List.mem_cons_of_mem a hx))
      (List.chain'_cons'.mp hasep).2 (hfsorted.sublist hrem)
    rw [hih, memT_cons]
    have hsep_head := avail_head_sep a as hane hasep
    constructor
    · rintro (⟨hc, hb, hn⟩ | ⟨hmas, hnrem⟩)
      · exact ⟨Or.inl ⟨hc, hb⟩, hn⟩
      · refine ⟨Or.inr hmas, ?_⟩
        obtain ⟨g, hg, hgw⟩ := hmas
        have hag := hsep_head g hg
        simp only [wmem] at hgw
        have hbt : a.end_exclusive ≤ t := by omega
        intro hmf
        exact hnrem ((carveLoop_rem_mem_ge fixed a.start_inclusive
          a.end_exclusive ha t hbt).mp hmf)
    · rintro ⟨hwa | hmas, hn⟩
      · left
        exact ⟨hwa.1, hwa.2, hn⟩
      · right
        refine ⟨hmas, ?_⟩
        obtain ⟨g, hg, hgw⟩ := hmas
        have hag := hsep_head g hg
        simp only [wmem] at hgw
        have hbt : a.end_exclusive ≤ t := by omega
        intro hmrem
        exact hn ((carveLoop_rem_mem_ge fixed a.start_inclusive
          a.end_exclusive ha t hbt).mpr hmrem)

theorem carveAux_bounds (avail fixed : List AvailableWindow)
    (hane : allNonempty avail) (hfne : allNonempty fixed) :
    ∀ w ∈ carveAux avail fixed,
      w.start_inclusive < w.end_exclusive ∧
        ∃ a ∈ avail, a.start_inclusive ≤ w.start_inclusive ∧
          w.end_exclusive ≤ a.end_exclusive := by
  induction avail generalizing fixed with
  | nil => simp [carveAux]
  | cons a as ih =>
    rw [carveAux_cons]
    intro w hw
    rcases List.mem_append.mp hw with hw1 | hw2
    · have hemit := (carveLoop_emit fixed a.start_inclusive
        a.end_exclusive (hane a (by simp)) hfne).1 w hw1
      exact ⟨hemit.2.1, a, by simp, hemit.1, hemit.2.2⟩
    · have hremne : allNonempty
          (carveLoop fixed a.start_inclusive a.end_exclusive).2.1 :=
        fun x hx => hfne x ((carveLoop_rem_sublist fixed a.start_inclusive
          a.end_exclusive).subset hx)
      obtain ⟨hne', a', ha', hb1, hb2⟩ :=
        ih (carveLoop fixed a.start_inclusive a.end_exclusive).2.1
          (fun x hx => hane x (List.mem_cons_of_mem a hx)) hremne w hw2
      exact ⟨hne', a', List.mem_cons_of_mem a ha', hb1, hb2⟩

theorem carveAux_chain (avail fixed : List AvailableWindow)
    (hane : allNonempty avail)
    (hasep : List.Chain'
      (fun x y => x.end_exclusive < y.start_inclusive) avail)
    (hfne : allNonempty fixed) :
    List.Chain' (fun x y => x.end_exclusive < y.start_inclusive)
      (carveAux avail fixed) := by
  induction avail generalizing fixed with
  | nil => simp [carveAux]
  | cons a as ih =>
    rw [carveAux_cons]
    have hemit := carveLoop_emit fixed a.start_inclusive a.end_exclusive
      (hane a (by simp)) hfne
    have hanetail : allNonempty as :=
      fun x hx => hane x (List.mem_cons_of_mem a hx)
    have hremne : allNonempty
        (carveLoop fixed a.start_inclusive a.end_exclusive).2.1 :=
      fun x hx => hfne x ((carveLoop_rem_sublist fixed a.start_inclusive
        a.end_exclusive).subset hx)
    apply List.Chain'.append hemit.2
      (ih (carveLoop fixed a.start_inclusive a.end_exclusive).2.1
        hanetail (List.chain'_cons'.mp hasep).2 hremne)
    intro x hx y hy
    have hxm := List.mem_of_mem_getLast? hx
    have hym := List.mem_of_mem_head? hy
    have hxb := (hemit.1 x hxm).2.2
    obtain ⟨_, a', ha', hys, _⟩ :=
      carveAux_bounds as _ hanetail hremne y hym
    have hsep := avail_head_sep a as hane hasep a' ha'
    omega

theorem chainB_iff_chain' (p : AvailableWindow → AvailableWindow → Bool)
    (ws : List AvailableWindow) :
    chainB p ws = true ↔
      List.Chain' (fun x y => p x y = true) ws := by
  induction ws with
  | nil => simp [chainB]
  | cons a t ih =>
    cases t with
    | nil => simp [chainB]
    | cons b t' =>
      rw [chainB_cons_cons, Bool.and_eq_true, ih, List.chain'_cons]

theorem chainSepB_iff (ws : List AvailableWindow) :
    chainSepB ws = true ↔ List.Chain'
      (fun x y => x.end_exclusive < y.start_inclusive) ws := by
  rw [chainSepB, chainB_iff_chain']
  constructor <;> intro h <;>
    exact h.imp (fun a b hh => by simpa using hh)

theorem chainStartLeB_pairwise (ws : List AvailableWindow)
    (h : chainStartLeB ws = true) :
    List.Pairwise
      (fun x y => x.start_inclusive ≤ y.start_inclusive) ws := by
  rw [chainStartLeB, chainB_iff_chain'] at h
  have h2 : List.Chain'
      (fun x y : AvailableWindow =>
        x.start_inclusive ≤ y.start_inclusive) ws :=
    h.imp (fun a b hh => by simpa using hh)
  exact List.chain'_iff_pairwise.mp h2

/-- Counterexample to C2 as stated: with availability `[(0, 10)]` (sorted,
disjoint, non-empty) and the sorted fixed sequence `[(5, 5)]` — an empty
fixed interval, which subtracts no time points — the carving output is
`[(0, 5), (5, 10)]`: as a set of time points it equals
`[0, 10) \ ∅ = [0, 10)`, but it is not that set's decomposition into
maximal intervals (`[(0, 10)]`): the two output windows touch instead of
being separated by a gap. -/
theorem carve_not_maximal_cex :
    allNonempty [(⟨0, 10⟩ : AvailableWindow)] ∧
    chainStartLeB [(⟨5, 5⟩ : AvailableWindow)] = true ∧
    assignCarve [⟨0, 10⟩] [⟨5, 5⟩] = [⟨0, 5⟩, ⟨5, 10⟩] ∧
    assignCarve [⟨0, 10⟩] [⟨5, 5⟩] ≠ [⟨0, 10⟩] ∧
    chainSepB (assignCarve [⟨0, 10⟩] [⟨5, 5⟩]) = false :=
  ⟨by decide, by decide, by decide, by decide, by decide⟩

/-- C2 (amended): for availability sequences of non-empty windows whose
consecutive windows are strictly separated (`end_exclusive <` next
`start_inclusive`) and sorted fixed sequences of non-empty windows, the
carving `assign(availability, fixed)` produces exactly the decomposition
of `⋃ availability \ ⋃ fixed` into maximal intervals: as a set of time
points it equals the difference, every output window is non-empty, and
consecutive output windows are sorted with a non-empty gap between them
(hence sorted, pairwise disjoint, maximal); and on the S5 instance
availability = [(0,500),(600,1000)], fixed = [(100,200),(400,700),
(900,1100)] the output is exactly [(0,100),(200,400),(700,900)]. -/
theorem carve_correct (availability fixed_assignments :
    List AvailableWindow) (hane : allNonempty availability)
    (hasep : chainSepB availability = true)
    (hfne : allNonempty fixed_assignments)
    (hfsorted : chainStartLeB fixed_assignments = true) :
    (∀ t, memT t (assignCarve availability fixed_assignments) ↔
      (memT t availability ∧ ¬ memT t fixed_assignments)) ∧
    allNonempty (assignCarve availability fixed_assignments) ∧
    chainSepB (assignCarve availability fixed_assignments) = true ∧
    assignCarve [⟨0, 500⟩, ⟨600, 1000⟩]
      [⟨100, 200⟩, ⟨400, 700⟩, ⟨900, 1100⟩] =
      [⟨0, 100⟩, ⟨200, 400⟩, ⟨700, 900⟩] := by
  have hasep' := (chainSepB_iff availability).mp hasep
  have hfp := chainStartLeB_pairwise _ hfsorted
  exact ⟨fun t => carveAux_mem availability fixed_assignments hane
      hasep' hfp t,
    fun w hw => (carveAux_bounds availability fixed_assignments hane
      hfne w hw).1,
    (chainSepB_iff _).mpr (carveAux_chain availability fixed_assignments
      hane hasep' hfne),
    by decide⟩

/-- Witness for C2 at the S5 instance: the hypotheses hold there and the
output is exactly [(0,100),(200,400),(700,900)], non-empty and
gap-separated. -/
theorem carve_correct_witness :
    assignCarve [⟨0, 500⟩, ⟨600, 1000⟩]
      [⟨100, 200⟩, ⟨400, 700⟩, ⟨900, 1100⟩] =
      [⟨0, 100⟩, ⟨200, 400⟩, ⟨700, 900⟩] ∧
    allNonempty (assignCarve [⟨0, 500⟩, ⟨600, 1000⟩]
      [⟨100, 200⟩, ⟨400, 700⟩, ⟨900, 1100⟩]) ∧
    chainSepB (assignCarve [⟨0, 500⟩, ⟨600, 1000⟩]
      [⟨100, 200⟩, ⟨400, 700⟩, ⟨900, 1100⟩]) = true :=
  have h := carve_correct [⟨0, 500⟩, ⟨600, 1000⟩]
    [⟨100, 200⟩, ⟨400, 700⟩, ⟨900, 1100⟩]
    (by decide) (by decide) (by decide) (by decide)
  ⟨h.2.2.2, h.2.1, h.2.2.1⟩

end Leviathan
